import Mathlib

/-!
Verification of the torrent_rs download engine against its specification.

The Rust sources are embedded shallowly: byte buffers become `List Nat`
(each element a byte value), `u32`/`usize` arithmetic becomes `Nat`
arithmetic (all the places where overflow or underflow matters are modelled
explicitly), fallible reads return `Option`, and a Rust panic is an explicit
outcome of the model.  Stateful methods take the receiver and return the
updated value.
-/

namespace TorrentRs

/-! ## Wire messages (src/message/mod.rs, enum PeerMessage) -/

/-- Peer wire messages, from `src/message/mod.rs`.  Byte strings are `List Nat`. -/
inductive PeerMessage where
  | keepAlive
  | choke
  | unchoke
  | interested
  | notInterested
  | have (pieceIndex : Nat)
  | bitfield (data : List Nat)
  | request (index begin_ length : Nat)
  | piece (index begin_ : Nat) (block : List Nat)
  | cancel (index begin_ length : Nat)
  | port (p : Nat)
  deriving DecidableEq, Repr

/-! ## Byte-buffer primitives (tokio_util bytes::Buf / BytesMut)

`get_u32`, `get_u16`, `get_u8` advance the buffer and panic when fewer bytes
remain than requested; `split_to n` panics when `n` exceeds the buffer length.
`none` models the panic. -/

/-- `Buf::get_u32`: big-endian 4-byte read, advancing the buffer. -/
def readU32 : List Nat → Option (Nat × List Nat)
  | b0 :: b1 :: b2 :: b3 :: rest => some (((b0 * 256 + b1) * 256 + b2) * 256 + b3, rest)
  | _ => none

/-- `Buf::get_u16`: big-endian 2-byte read, advancing the buffer. -/
def readU16 : List Nat → Option (Nat × List Nat)
  | b0 :: b1 :: rest => some (b0 * 256 + b1, rest)
  | _ => none

/-- `Buf::get_u8`: 1-byte read, advancing the buffer. -/
def readU8 : List Nat → Option (Nat × List Nat)
  | b :: rest => some (b, rest)
  | _ => none

/-- `BytesMut::split_to n`: the first `n` bytes and the remainder. -/
def splitTo (n : Nat) (s : List Nat) : Option (List Nat × List Nat) :=
  if n ≤ s.length then some (s.take n, s.drop n) else none

/-! ## MessageCodec::decode (src/message/codec.rs) -/

/-- From `src/message/codec.rs`: `MAX_MESSAGE_SIZE = 16 * 1024` (the source
comment reads "16 MB" but the value is 16 KiB = 16384 bytes). -/
def MAX_MESSAGE_SIZE : Nat := 16 * 1024

/-- The two `io::Error` values produced by `MessageCodec::decode`. -/
inductive DecodeError where
  | sizeExceeded
  | unknownId (id : Nat)
  deriving DecidableEq, Repr

/-- Outcome of one `MessageCodec::decode` call on a buffer.  `needMore` is
`Ok(None)` and `ok` is `Ok(Some _)`; both carry the buffer as it stands when
the call returns.  `crash` models a Rust panic (an arithmetic underflow in
debug builds, or an out-of-range `Buf` read / `split_to`). -/
inductive DecodeResult where
  | needMore (rest : List Nat)
  | ok (m : PeerMessage) (rest : List Nat)
  | err (e : DecodeError) (rest : List Nat)
  | crash
  deriving DecidableEq, Repr

/-- The per-id dispatch of `MessageCodec::decode` (codec.rs lines 44-99),
entered after the id byte has been consumed; `s2` is the buffer at that
point and `length` the declared frame length. -/
def decodeBody (length id : Nat) (s2 : List Nat) : DecodeResult :=
  match id with
  | 0 => .ok .choke s2
  | 1 => .ok .unchoke s2
  | 2 => .ok .interested s2
  | 3 => .ok .notInterested s2
  | 4 =>
    match readU32 s2 with
    | none => .crash
    | some (pieceIndex, s3) => .ok (.have pieceIndex) s3
  | 5 =>
    match splitTo (length - 1) s2 with
    | none => .crash
    | some (bf, s3) => .ok (.bitfield bf) s3
  | 6 =>
    match readU32 s2 with
    | none => .crash
    | some (index, s3) =>
      match readU32 s3 with
      | none => .crash
      | some (begin_, s4) =>
        match readU32 s4 with
        | none => .crash
        | some (len, s5) => .ok (.request index begin_ len) s5
  | 7 =>
    match readU32 s2 with
    | none => .crash
    | some (index, s3) =>
      match readU32 s3 with
      | none => .crash
      | some (begin_, s4) =>
        if length < 9 then .crash
        else
          match splitTo (length - 9) s4 with
          | none => .crash
          | some (block, s5) => .ok (.piece index begin_ block) s5
  | 8 =>
    match readU32 s2 with
    | none => .crash
    | some (index, s3) =>
      match readU32 s3 with
      | none => .crash
      | some (begin_, s4) =>
        match readU32 s4 with
        | none => .crash
        | some (len, s5) => .ok (.cancel index begin_ len) s5
  | 9 =>
    match readU16 s2 with
    | none => .crash
    | some (p, s3) => .ok (.port p) s3
  | _ => .err (.unknownId id) s2

/-- `MessageCodec::decode` (codec.rs lines 17-102).  Mirrors the source
exactly: the 4-byte length prefix is consumed by `get_u32` before the
`length == 0`, size-cap, and whole-frame checks run, so every branch after
that point returns a buffer with the prefix already gone. -/
def decode (src : List Nat) : DecodeResult :=
  if src.length < 4 then .needMore src
  else
    match readU32 src with
    | none => .crash
    | some (length, s1) =>
      if length = 0 then .ok .keepAlive s1
      else if MAX_MESSAGE_SIZE < length ∨ MAX_MESSAGE_SIZE < s1.length then
        .err .sizeExceeded s1
      else if s1.length < length then .needMore s1
      else
        match readU8 s1 with
        | none => .crash
        | some (id, s2) => decodeBody length id s2

/-- Fixed number of bytes the id's decode arm insists the declared length
cover: the id byte itself plus the variant's fixed payload (Have reads a
4-byte index, Request and Cancel read three 4-byte fields, Piece reads two
4-byte fields and requires `length ≥ 9`, Port reads a 2-byte field). -/
def requiredLen (id : Nat) : Nat :=
  match id with
  | 4 => 5
  | 6 => 13
  | 7 => 9
  | 8 => 13
  | 9 => 3
  | _ => 1

/-- Hypothesis of the amended totality claim: the declared length of the
buffer covers the fixed-size reads of the variant its id byte selects. -/
def declaredLenOk (src : List Nat) : Bool :=
  match readU32 src with
  | none => true
  | some (len, s1) =>
    match readU8 s1 with
    | none => true
    | some (id, _) => requiredLen id ≤ len

/-! ## Codec lemmas -/

lemma readU32_some_length {src : List Nat} {v : Nat} {rest : List Nat}
    (h : readU32 src = some (v, rest)) : src.length = rest.length + 4 := by
  match src with
  | b0 :: b1 :: b2 :: b3 :: r =>
    simp [readU32] at h
    simp [← h.2]
  | [] => simp [readU32] at h
  | [_] => simp [readU32] at h
  | [_, _] => simp [readU32] at h
  | [_, _, _] => simp [readU32] at h

lemma readU32_isSome {s : List Nat} (h : 4 ≤ s.length) :
    ∃ v rest, readU32 s = some (v, rest) ∧ s.length = rest.length + 4 := by
  match s with
  | b0 :: b1 :: b2 :: b3 :: r => exact ⟨_, r, rfl, by simp⟩
  | [] => simp at h
  | [_] => simp at h
  | [_, _] => simp at h
  | [_, _, _] => simp at h

lemma readU16_isSome {s : List Nat} (h : 2 ≤ s.length) :
    ∃ v rest, readU16 s = some (v, rest) ∧ s.length = rest.length + 2 := by
  match s with
  | b0 :: b1 :: r => exact ⟨_, r, rfl, by simp⟩
  | [] => simp at h
  | [_] => simp at h

lemma readU8_isSome {s : List Nat} (h : 1 ≤ s.length) :
    ∃ v rest, readU8 s = some (v, rest) ∧ s.length = rest.length + 1 := by
  match s with
  | b :: r => exact ⟨_, r, rfl, by simp⟩
  | [] => simp at h

lemma readU8_some_length {s : List Nat} {v : Nat} {rest : List Nat}
    (h : readU8 s = some (v, rest)) : s.length = rest.length + 1 := by
  match s with
  | b :: r =>
    simp [readU8] at h
    simp [← h.2]
  | [] => simp [readU8] at h

lemma splitTo_isSome {n : Nat} {s : List Nat} (h : n ≤ s.length) :
    splitTo n s = some (s.take n, s.drop n) := by
  simp [splitTo, h]

lemma decodeBody_ne_sizeExceeded (length id : Nat) (s r : List Nat) :
    decodeBody length id s ≠ .err .sizeExceeded r := by
  unfold decodeBody
  rcases id with _ | _ | _ | _ | _ | _ | _ | _ | _ | _ | id <;>
    (repeat' split) <;> simp

lemma decodeBody_ne_crash (length id : Nat) (s2 : List Nat)
    (hreq : requiredLen id ≤ length) (hlen : length ≤ s2.length + 1) :
    decodeBody length id s2 ≠ .crash := by
  rcases id with _ | _ | _ | _ | _ | _ | _ | _ | _ | _ | id
  · simp [decodeBody]
  · simp [decodeBody]
  · simp [decodeBody]
  · simp [decodeBody]
  · -- Have: a 4-byte read out of at least `length - 1 ≥ 4` bytes
    simp only [requiredLen] at hreq
    obtain ⟨v, rest, hr, -⟩ := readU32_isSome (s := s2) (by omega)
    simp [decodeBody, hr]
  · -- Bitfield: split_to (length - 1) with length - 1 ≤ |s2|
    have : splitTo (length - 1) s2 = some (s2.take (length - 1), s2.drop (length - 1)) :=
      splitTo_isSome (by omega)
    simp [decodeBody, this]
  · -- Request: three 4-byte reads out of at least 12 bytes
    simp only [requiredLen] at hreq
    obtain ⟨v1, r1, h1, e1⟩ := readU32_isSome (s := s2) (by omega)
    obtain ⟨v2, r2, h2, e2⟩ := readU32_isSome (s := r1) (by omega)
    obtain ⟨v3, r3, h3, e3⟩ := readU32_isSome (s := r2) (by omega)
    simp [decodeBody, h1, h2, h3]
  · -- Piece: two 4-byte reads, then split_to (length - 9)
    simp only [requiredLen] at hreq
    obtain ⟨v1, r1, h1, e1⟩ := readU32_isSome (s := s2) (by omega)
    obtain ⟨v2, r2, h2, e2⟩ := readU32_isSome (s := r1) (by omega)
    have hs : splitTo (length - 9) r2 = some (r2.take (length - 9), r2.drop (length - 9)) :=
      splitTo_isSome (by omega)
    simp [decodeBody, h1, h2, hs]
    omega
  · -- Cancel: three 4-byte reads out of at least 12 bytes
    simp only [requiredLen] at hreq
    obtain ⟨v1, r1, h1, e1⟩ := readU32_isSome (s := s2) (by omega)
    obtain ⟨v2, r2, h2, e2⟩ := readU32_isSome (s := r1) (by omega)
    obtain ⟨v3, r3, h3, e3⟩ := readU32_isSome (s := r2) (by omega)
    simp [decodeBody, h1, h2, h3]
  · -- Port: a 2-byte read out of at least 2 bytes
    simp only [requiredLen] at hreq
    obtain ⟨v, rest, hr, -⟩ := readU16_isSome (s := s2) (by omega)
    simp [decodeBody, hr]
  · simp [decodeBody]

/-! ## Claim theorems for the wire codec -/

/-- C1 counterexample: the hard cap in the code is `16 * 1024 = 16384`, not
16 KiB + 13 = 16397.  A frame declaring length 16385 — at or below the
claimed cap — is rejected for its size, refuting "no frame whose declared
length is at or below the cap is rejected for its size". -/
theorem C1_counterexample :
    decode [0, 0, 64, 1] = .err .sizeExceeded [] ∧ (16385 : Nat) ≤ 16 * 1024 + 13 := by
  constructor
  · decide
  · decide

/-- C1 (amended): the wire codec bounds frames by the hard cap
`MAX_MESSAGE_SIZE = 16 * 1024` (16 KiB, not 16 KiB + 13): for every buffer
whose 4-byte prefix decodes to a nonzero declared length, decode fails with
the size `ProtocolError` — consuming nothing beyond the prefix, before any
further reads — exactly when the declared length exceeds the cap or the
bytes remaining after the prefix exceed the cap; no other frame is rejected
for its size. -/
theorem C1_amended_cap (src s1 : List Nat) (len : Nat)
    (h : readU32 src = some (len, s1)) (hlen : len ≠ 0) :
    decode src = .err .sizeExceeded s1 ↔
      (MAX_MESSAGE_SIZE < len ∨ MAX_MESSAGE_SIZE < s1.length) := by
  have hsrc : ¬ src.length < 4 := by
    have := readU32_some_length h
    omega
  by_cases hc : MAX_MESSAGE_SIZE < len ∨ MAX_MESSAGE_SIZE < s1.length
  · simp [decode, hsrc, h, hlen, hc]
  · simp only [hc, iff_false]
    by_cases hfull : s1.length < len
    · simp [decode, hsrc, h, hlen, hc, hfull]
    · match s1 with
      | [] =>
        exfalso
        simp at hfull
        omega
      | b :: rest =>
        have hd : decode src =
            if (b :: rest).length < len then .needMore (b :: rest) else decodeBody len b rest := by
          simp [decode, hsrc, h, hlen, readU8]
          intro hcc
          exact absurd (by simpa using hcc) hc
        rw [hd, if_neg hfull]
        exact decodeBody_ne_sizeExceeded len b rest (b :: rest)

/-- C1 witness: a buffer declaring length 16385 with nothing after the prefix
is rejected by the size check. -/
theorem C1_witness : decode [0, 0, 64, 1] = DecodeResult.err .sizeExceeded [] :=
  (C1_amended_cap [0, 0, 64, 1] [] 16385 rfl (by decide)).mpr (by decide)

/-- C2: decoding the incomplete Have frame `[0,0,0,5,4,0,0]` returns
"need more bytes", but the 4-byte length prefix has been consumed — the
buffer left behind is `[4,0,0]`, not the original input.  The claim that no
bytes are consumed fails on the code. -/
theorem C2_prefix_consumed :
    decode [0, 0, 0, 5, 4, 0, 0] = .needMore [4, 0, 0] ∧
    ([4, 0, 0] : List Nat) ≠ [0, 0, 0, 5, 4, 0, 0] := by
  constructor
  · decide
  · decide

/-- C10 counterexample: the buffer `[0,0,0,1,4]` declares length 1 with id 4
(Have, whose arm reads a 4-byte index from an empty remainder), so decode
panics instead of returning Ok or Err — refuting totality as claimed. -/
theorem C10_counterexample : decode [0, 0, 0, 1, 4] = .crash := by decide

/-- C10 (amended): decode never panics on a buffer whose declared length
covers the fixed-size reads of the variant selected by its id byte
(at least 5 for Have, 13 for Request and Cancel, 9 for Piece, 3 for Port,
anything otherwise); on buffers below that bound it can panic. -/
theorem C10_amended_total (src : List Nat) (h : declaredLenOk src = true) :
    decode src ≠ .crash := by
  unfold decode
  split
  · simp
  · rename_i hge
    split
    · rename_i hnone
      -- readU32 cannot fail on a buffer of length ≥ 4
      obtain ⟨v, rest, hr, -⟩ := readU32_isSome (s := src) (by omega)
      simp [hr] at hnone
    · rename_i len s1 hsome
      split
      · simp
      · split
        · simp
        · split
          · simp
          · rename_i hlen0 hsz hfull
            split
            · rename_i hnone8
              obtain ⟨v, rest, hr, -⟩ := readU8_isSome (s := s1) (by simp at hfull; omega)
              simp [hr] at hnone8
            · rename_i id s2 h8
              have h8len : s1.length = s2.length + 1 := readU8_some_length h8
              apply decodeBody_ne_crash
              · unfold declaredLenOk at h
                rw [hsome] at h
                simp only [] at h
                rw [h8] at h
                simpa using h
              · simp at hfull
                omega

/-- C10 witness: a well-formed Have frame satisfies the declared-length bound
and therefore does not panic. -/
theorem C10_witness : decode [0, 0, 0, 5, 4, 0, 0, 0, 42] ≠ DecodeResult.crash :=
  C10_amended_total [0, 0, 0, 5, 4, 0, 0, 0, 42] (by decide)

/-! ## Bitfield (src/message/bitfield.rs) -/

/-- `Bitfield`: a byte sequence, piece `i` at bit `7 - i % 8` of byte `i / 8`. -/
structure Bitfield where
  data : List Nat
  deriving DecidableEq, Repr

/-- `Bitfield::has_piece` (bitfield.rs lines 13-24). -/
def Bitfield.has_piece (bf : Bitfield) (index : Nat) : Bool :=
  let byteIndex := index / 8
  let bitIndex := index % 8
  if bf.data.length ≤ byteIndex then false
  else (bf.data.getD byteIndex 0) &&& (1 <<< (7 - bitIndex)) != 0

/-- `Bitfield::len` (bitfield.rs line 26): bit capacity, `8 * |data|`. -/
def Bitfield.len (bf : Bitfield) : Nat := bf.data.length * 8

/-- `BitfieldIterator::next` (bitfield.rs lines 46-55) collected into the list
of all yielded indices, starting from stored position `index`.  The source
increments `index` first and tests `has_piece` afterwards, so the value 0 is
never tested. -/
def Bitfield.iterFrom (bf : Bitfield) : Nat → Nat → List Nat
  | 0, _ => []
  | fuel + 1, index =>
    if index < bf.len then
      let j := index + 1
      if bf.has_piece j then j :: bf.iterFrom fuel j else bf.iterFrom fuel j
    else []

/-- `Bitfield::iter` (bitfield.rs lines 30-35): iteration starts at `index = 0`.
The loop body runs at most `bf.len` times (each pass increments `index`, and the
loop stops at `bf.len`), so `bf.len` fuel is exact. -/
def Bitfield.iter (bf : Bitfield) : List Nat := bf.iterFrom bf.len 0

/-! ## Piece manager (src/piece/piece_manager.rs)

`HashMap<PieceIndex, u32>` is an association list, `HashSet<PieceIndex>` a
list of members, and `BTreeSet<(u32, PieceIndex)>` a list kept sorted in
ascending lexicographic order (its iteration order). -/

/-- `HashMap` lookup. -/
def assocGet {α : Type} [DecidableEq α] {β : Type} (m : List (α × β)) (k : α) : Option β :=
  match m with
  | [] => none
  | (k', v) :: rest => if k' = k then some v else assocGet rest k

/-- `HashMap::insert`: replace the binding of `k`, or add one. -/
def assocSet {α : Type} [DecidableEq α] {β : Type} (m : List (α × β)) (k : α) (v : β) :
    List (α × β) :=
  match m with
  | [] => [(k, v)]
  | (k', v') :: rest => if k' = k then (k, v) :: rest else (k', v') :: assocSet rest k v

/-- `HashMap::remove`. -/
def assocRemove {α : Type} [DecidableEq α] {β : Type} (m : List (α × β)) (k : α) :
    List (α × β) :=
  m.filter (fun e => e.1 ≠ k)

/-- Strict ascending order on `(count, index)` pairs — the `BTreeSet` order. -/
def pairLt (a b : Nat × Nat) : Bool :=
  a.1 < b.1 || (a.1 = b.1 && a.2 < b.2)

/-- `BTreeSet::insert` on the sorted-list model (no-op on a present element). -/
def queueInsert (q : List (Nat × Nat)) (x : Nat × Nat) : List (Nat × Nat) :=
  match q with
  | [] => [x]
  | y :: rest =>
    if pairLt x y then x :: y :: rest
    else if x = y then y :: rest
    else y :: queueInsert rest x

/-- `BTreeSet::remove` on the sorted-list model. -/
def queueRemove (q : List (Nat × Nat)) (x : Nat × Nat) : List (Nat × Nat) :=
  q.filter (fun y => y ≠ x)

/-- `PieceManager` (piece_manager.rs lines 8-22). -/
structure PieceManager where
  piece_counts : List (Nat × Nat)
  availability_queue : List (Nat × Nat)
  completed : List Nat
  pending : List Nat
  total_pieces : Nat
  piece_size : Nat
  deriving DecidableEq, Repr

/-- `PieceManager::new`. -/
def PieceManager.new (total_pieces piece_size : Nat) : PieceManager :=
  ⟨[], [], [], [], total_pieces, piece_size⟩

/-- `PieceManager::add_peer` (piece_manager.rs lines 37-53): for each index the
bitfield iterator yields, skip completed ones, bump the count, and replace the
queue tuple. -/
def PieceManager.add_peer (pm : PieceManager) (bf : Bitfield) : PieceManager :=
  bf.iter.foldl
    (fun pm pieceIndex =>
      if pm.completed.contains pieceIndex then pm
      else
        let oldCount := (assocGet pm.piece_counts pieceIndex).getD 0
        let newCount := oldCount + 1
        let q :=
          if 0 < oldCount then queueRemove pm.availability_queue (oldCount, pieceIndex)
          else pm.availability_queue
        { pm with
          piece_counts := assocSet pm.piece_counts pieceIndex newCount
          availability_queue := queueInsert q (newCount, pieceIndex) })
    pm

/-- The filter `next_piece` scans with (piece_manager.rs line 61-62). -/
def PieceManager.eligible (pm : PieceManager) (ci : Nat × Nat) : Bool :=
  0 < ci.1 && !pm.completed.contains ci.2 && !pm.pending.contains ci.2

/-- `PieceManager::next_piece` (piece_manager.rs lines 56-72): the selected
index together with the updated manager. -/
def PieceManager.next_piece (pm : PieceManager) : Option Nat × PieceManager :=
  match pm.availability_queue.find? pm.eligible with
  | some (_, piece) => (some piece, { pm with pending := piece :: pm.pending })
  | none => (none, pm)

/-- `PieceManager::mark_completed` (piece_manager.rs lines 75-80). -/
def PieceManager.mark_completed (pm : PieceManager) (piece : Nat) : PieceManager :=
  { pm with
    pending := pm.pending.filter (fun x => x ≠ piece)
    completed := if pm.completed.contains piece then pm.completed else piece :: pm.completed
    piece_counts := assocRemove pm.piece_counts piece
    availability_queue := pm.availability_queue.filter (fun ci => ci.2 ≠ piece) }

/-- `PieceManager::remove_peer` (piece_manager.rs lines 83-94): for each index
the bitfield iterator yields that has a count entry, saturating-decrement and
rebuild the queue tuple (dropping it at zero). -/
def PieceManager.remove_peer (pm : PieceManager) (bf : Bitfield) : PieceManager :=
  bf.iter.foldl
    (fun pm pieceIndex =>
      match assocGet pm.piece_counts pieceIndex with
      | none => pm
      | some oldCount =>
        let newCount := oldCount - 1
        let q := queueRemove pm.availability_queue (oldCount, pieceIndex)
        let q := if 0 < newCount then queueInsert q (newCount, pieceIndex) else q
        { pm with
          piece_counts := assocSet pm.piece_counts pieceIndex newCount
          availability_queue := q })
    pm

/-- `PieceManager::mark_failed` (piece_manager.rs lines 98-100). -/
def PieceManager.mark_failed (pm : PieceManager) (piece : Nat) : PieceManager :=
  { pm with pending := pm.pending.filter (fun x => x ≠ piece) }

/-- `PieceManager::is_complete` (piece_manager.rs lines 103-105). -/
def PieceManager.is_complete (pm : PieceManager) : Bool :=
  pm.completed.length = pm.total_pieces

/-! ## Claim theorems for the piece manager -/

/-- C3: the spec's rarest-first scenario evaluated on the code.  Peer A's
bitfield byte 0xE0 encodes {0,1,2} — `has_piece 0` is true — yet the
bitfield iterator yields only [1, 2] because `BitfieldIterator::next`
increments the index before testing it, so index 0 is never examined.
Piece 0 is therefore never counted, and the three successive `next_piece()`
calls return 1, 2 and None instead of the claimed 0, 1, 2. -/
theorem C3_scenario_yields_1_2_none :
    (Bitfield.mk [0xE0]).has_piece 0 = true ∧
    (Bitfield.mk [0xE0]).iter = [1, 2] ∧
    (let pm := (((PieceManager.new 3 16384).add_peer ⟨[0xE0]⟩).add_peer
        ⟨[0x60]⟩).add_peer ⟨[0x20]⟩
     (pm.next_piece).1 = some 1 ∧
     ((pm.next_piece).2.next_piece).1 = some 2 ∧
     (((pm.next_piece).2.next_piece).2.next_piece).1 = none) := by
  refine ⟨by decide, by decide, by decide, by decide, by decide⟩

/-- The availability queue in its `BTreeSet` iteration order: strictly
ascending by `(count, index)`. -/
def QueueSorted (q : List (Nat × Nat)) : Prop :=
  q.Pairwise (fun a b => pairLt a b = true)

lemma find?_first_min {l : List (Nat × Nat)} {p : Nat × Nat → Bool}
    (hs : l.Pairwise (fun a b => pairLt a b = true)) {x : Nat × Nat}
    (hf : l.find? p = some x) :
    ∀ y ∈ l, p y = true → x = y ∨ pairLt x y = true := by
  induction l with
  | nil => simp at hf
  | cons z rest ih =>
    rw [List.pairwise_cons] at hs
    intro y hy hpy
    rw [List.find?_cons] at hf
    cases hpz : p z with
    | true =>
      simp only [hpz] at hf
      obtain rfl : z = x := by injection hf
      rcases List.mem_cons.mp hy with rfl | hy
      · exact Or.inl rfl
      · exact Or.inr (hs.1 y hy)
    | false =>
      simp only [hpz] at hf
      rcases List.mem_cons.mp hy with rfl | hy
      · rw [hpy] at hpz; cases hpz
      · exact ih hs.2 hf y hy hpy

/-- C8: when the availability queue is in its sorted order, `next_piece()`
returns the index of the first eligible `(count, index)` tuple — which is
lexicographically minimal among eligible tuples, so minimal count with ties
broken by ascending index — adds that index to `pending`, changes nothing
else, and returns None exactly when no tuple is eligible (count positive,
index neither completed nor pending). -/
theorem C8_next_piece_rarest_first (pm : PieceManager)
    (hs : QueueSorted pm.availability_queue) :
    (∀ c i, pm.availability_queue.find? pm.eligible = some (c, i) →
      (pm.next_piece).1 = some i ∧
      (pm.next_piece).2 = { pm with pending := i :: pm.pending } ∧
      (c, i) ∈ pm.availability_queue ∧ pm.eligible (c, i) = true ∧
      ∀ c' i', (c', i') ∈ pm.availability_queue → pm.eligible (c', i') = true →
        c < c' ∨ (c = c' ∧ i ≤ i')) ∧
    ((pm.next_piece).1 = none ↔
      ∀ x ∈ pm.availability_queue, pm.eligible x = false) := by
  constructor
  · intro c i hf
    refine ⟨by simp [PieceManager.next_piece, hf], by simp [PieceManager.next_piece, hf],
      List.mem_of_find?_eq_some hf, List.find?_some hf, ?_⟩
    intro c' i' hmem helig
    rcases find?_first_min hs hf (c', i') hmem helig with heq | hlt
    · cases heq
      omega
    · simp [pairLt] at hlt
      omega
  · constructor
    · intro hnone x hx
      unfold PieceManager.next_piece at hnone
      cases hf : pm.availability_queue.find? pm.eligible with
      | none => simpa using List.find?_eq_none.mp hf x hx
      | some ci => rw [hf] at hnone; simp at hnone
    · intro hall
      have : pm.availability_queue.find? pm.eligible = none :=
        List.find?_eq_none.mpr (fun x hx => by simp [hall x hx])
      simp [PieceManager.next_piece, this]

/-- C8 witness: a two-element sorted queue where the rarer piece 2 is chosen
and added to pending. -/
theorem C8_witness :
    let pm : PieceManager := ⟨[(2, 1), (0, 2)], [(1, 2), (2, 0)], [], [], 3, 64⟩
    (pm.next_piece).1 = some 2 ∧ (pm.next_piece).2.pending = [2] := by
  have h := C8_next_piece_rarest_first ⟨[(2, 1), (0, 2)], [(1, 2), (2, 0)], [], [], 3, 64⟩
    (by constructor <;> simp [pairLt])
  have h2 := h.1 1 2 (by decide)
  exact ⟨h2.1, by rw [h2.2.1]⟩

/-! ## C9: completed pieces are never reassigned -/

/-- The piece-manager operations a session can perform after a completion. -/
inductive PMOp where
  | addPeer (bf : Bitfield)
  | nextPiece
  | markCompleted (piece : Nat)
  | markFailed (piece : Nat)
  | removePeer (bf : Bitfield)

/-- State effect of one operation (for `next_piece`, the state change of the
call whose returned index is examined separately). -/
def PMOp.apply (pm : PieceManager) : PMOp → PieceManager
  | .addPeer bf => pm.add_peer bf
  | .nextPiece => (pm.next_piece).2
  | .markCompleted piece => pm.mark_completed piece
  | .markFailed piece => pm.mark_failed piece
  | .removePeer bf => pm.remove_peer bf

/-- A whole sequence of operations, applied in order. -/
def applyOps (pm : PieceManager) (ops : List PMOp) : PieceManager :=
  ops.foldl PMOp.apply pm

lemma add_peer_completed (pm : PieceManager) (bf : Bitfield) :
    (pm.add_peer bf).completed = pm.completed := by
  unfold PieceManager.add_peer
  generalize bf.iter = l
  induction l generalizing pm with
  | nil => rfl
  | cons a l ih =>
    rw [List.foldl_cons, ih]
    by_cases hc : a ∈ pm.completed <;> simp [hc]

lemma remove_peer_completed (pm : PieceManager) (bf : Bitfield) :
    (pm.remove_peer bf).completed = pm.completed := by
  unfold PieceManager.remove_peer
  generalize bf.iter = l
  induction l generalizing pm with
  | nil => rfl
  | cons a l ih =>
    rw [List.foldl_cons, ih]
    cases assocGet pm.piece_counts a <;> simp

lemma next_piece_completed (pm : PieceManager) :
    ((pm.next_piece).2).completed = pm.completed := by
  unfold PieceManager.next_piece
  cases hf : pm.availability_queue.find? pm.eligible with
  | none => rfl
  | some ci => cases ci; rfl

lemma apply_preserves_completed (pm : PieceManager) (op : PMOp) (p : Nat)
    (h : pm.completed.contains p = true) :
    (op.apply pm).completed.contains p = true := by
  cases op with
  | addPeer bf => rwa [PMOp.apply, add_peer_completed]
  | nextPiece => rwa [PMOp.apply, next_piece_completed]
  | markFailed piece => exact h
  | removePeer bf => rwa [PMOp.apply, remove_peer_completed]
  | markCompleted piece =>
    show (if pm.completed.contains piece then pm.completed else piece :: pm.completed).contains p
      = true
    by_cases hc : pm.completed.contains piece = true <;> simp_all

lemma next_piece_not_completed (pm : PieceManager) (p : Nat)
    (h : pm.completed.contains p = true) : (pm.next_piece).1 ≠ some p := by
  unfold PieceManager.next_piece
  cases hf : pm.availability_queue.find? pm.eligible with
  | none => simp
  | some ci =>
    obtain ⟨c, i⟩ := ci
    have helig := List.find?_some hf
    simp only []
    intro hip
    obtain rfl : i = p := by injection hip
    simp [PieceManager.eligible] at helig
    exact absurd (by simpa using h) helig.1.2

/-- C9: for every piece-manager state, piece `p`, and sequence of later
operations (peers joining or leaving with arbitrary bitfields, further
selections, completions, failures), once `mark_completed p` has run a later
`next_piece()` call never returns `p`: `mark_completed` inserts `p` into the
completed set, no operation ever removes it, and `next_piece` filters
completed indices out. -/
theorem C9_completed_never_reassigned (pm : PieceManager) (p : Nat) (ops : List PMOp) :
    ((applyOps (pm.mark_completed p) ops).next_piece).1 ≠ some p := by
  have hstart : (pm.mark_completed p).completed.contains p = true := by
    show (if pm.completed.contains p then pm.completed else p :: pm.completed).contains p = true
    by_cases hc : pm.completed.contains p = true <;> simp_all
  have hkeep : ∀ ops' pm', pm'.completed.contains p = true →
      (applyOps pm' ops').completed.contains p = true := by
    intro ops'
    induction ops' with
    | nil => intro pm' h; exact h
    | cons op rest ih =>
      intro pm' h
      exact ih _ (apply_preserves_completed pm' op p h)
  exact next_piece_not_completed _ p (hkeep ops _ hstart)

/-! ## Block manager (src/piece/block_manager.rs) -/

/-- `BLOCK_SIZE` (src/piece/mod.rs): 16 KiB request granularity. -/
def BLOCK_SIZE : Nat := 16384

/-- `BlockInfo` (src/piece/mod.rs). -/
structure BlockInfo where
  piece_index : Nat
  offset : Nat
  length : Nat
  deriving DecidableEq, Repr

/-- `BlockManager` (block_manager.rs lines 5-8).  `pending_blocks` maps a
`BlockInfo` to the `Instant` it was requested; instants are modelled by a
monotone counter `clock` that ticks at each insertion. -/
structure BlockManager where
  piece_blocks : List (Nat × List (Option (List Nat)))
  pending_blocks : List (BlockInfo × Nat)
  clock : Nat
  deriving DecidableEq, Repr

/-- `BlockManager::new`. -/
def BlockManager.new : BlockManager := ⟨[], [], 0⟩

/-- `BlockManager::init_piece` (block_manager.rs lines 18-22):
`piece_size.div_ceil(BLOCK_SIZE)` empty slots, replacing any previous state. -/
def BlockManager.init_piece (bm : BlockManager) (piece_index piece_size : Nat) : BlockManager :=
  let num_blocks := (piece_size + BLOCK_SIZE - 1) / BLOCK_SIZE
  { bm with piece_blocks := assocSet bm.piece_blocks piece_index (List.replicate num_blocks none) }

/-- The scan inside `BlockManager::next_block` (block_manager.rs lines 27-43):
walk the slots from block `i` upward and return the first block that is empty
and whose `BlockInfo` is not pending.  (The Rust `piece_size - offset` is u32
subtraction, which would underflow for `offset > piece_size`; every slot of an
initialised piece has `offset < piece_size`, and Nat subtraction agrees with
u32 subtraction on that domain.) -/
def nextBlockScan (pending : List (BlockInfo × Nat)) (piece_index piece_size : Nat) :
    List (Option (List Nat)) → Nat → Option BlockInfo
  | [], _ => none
  | slot :: rest, i =>
    match slot with
    | some _ => nextBlockScan pending piece_index piece_size rest (i + 1)
    | none =>
      let offset := i * BLOCK_SIZE
      let length := min BLOCK_SIZE (piece_size - offset)
      let block_info : BlockInfo := ⟨piece_index, offset, length⟩
      if (assocGet pending block_info).isSome then
        nextBlockScan pending piece_index piece_size rest (i + 1)
      else some block_info

/-- `BlockManager::next_block` (block_manager.rs lines 24-45): the returned
block (if any) is inserted into `pending_blocks` with the current instant. -/
def BlockManager.next_block (bm : BlockManager) (piece_index piece_size : Nat) :
    Option BlockInfo × BlockManager :=
  match assocGet bm.piece_blocks piece_index with
  | none => (none, bm)
  | some blocks =>
    match nextBlockScan bm.pending_blocks piece_index piece_size blocks 0 with
    | none => (none, bm)
    | some block_info =>
      (some block_info,
        { bm with
          pending_blocks := assocSet bm.pending_blocks block_info bm.clock
          clock := bm.clock + 1 })

/-- `BlockManager::store_block` (block_manager.rs lines 47-56): always clear
the pending entry; place the bytes only when the piece exists and the slot
index is in range. -/
def BlockManager.store_block (bm : BlockManager) (block_info : BlockInfo)
    (data : List Nat) : BlockManager :=
  let pending := assocRemove bm.pending_blocks block_info
  match assocGet bm.piece_blocks block_info.piece_index with
  | none => { bm with pending_blocks := pending }
  | some blocks =>
    let block_index := block_info.offset / BLOCK_SIZE
    if block_index < blocks.length then
      { bm with
        pending_blocks := pending
        piece_blocks := assocSet bm.piece_blocks block_info.piece_index
          (blocks.set block_index (some data)) }
    else { bm with pending_blocks := pending }

/-- Modelled from the spec: `BlockManager::is_piece_complete` is called from
`PeerWorker::handle_piece_data` (peer_worker.rs line 202) but its definition
is not among the sources.  Spec section 4.4: "`is_piece_complete(index)`
returns true iff every slot of that piece is present"; an uninitialised piece
has no slots and is not complete (spec section 3: "an uninitialised piece
admits no blocks"). -/
def BlockManager.is_piece_complete (bm : BlockManager) (index : Nat) : Bool :=
  match assocGet bm.piece_blocks index with
  | some blocks => blocks.all Option.isSome
  | none => false

/-- Modelled from the spec: `BlockManager::assemble_piece` is called from
`PeerWorker::handle_piece_data` (peer_worker.rs line 203, matched as an
`Option`) but its definition is not among the sources.  Spec section 4.4:
"`assemble_piece(index)` concatenates all slots in offset order and returns
the bytes". -/
def BlockManager.assemble_piece (bm : BlockManager) (index : Nat) : Option (List Nat) :=
  match assocGet bm.piece_blocks index with
  | some blocks =>
    if blocks.all Option.isSome then some ((blocks.map (fun s => s.getD [])).flatten)
    else none
  | none => none

/-- Modelled from the spec: `BlockManager::cleanup_piece` is called from
`PeerWorker::handle_piece_data` (peer_worker.rs line 214) but its definition
is not among the sources.  Spec section 4.4: "`cleanup_piece(index)` discards
the piece's bookkeeping (but not its pending entries)". -/
def BlockManager.cleanup_piece (bm : BlockManager) (index : Nat) : BlockManager :=
  { bm with piece_blocks := assocRemove bm.piece_blocks index }

/-! ## Claim theorems for the block manager -/

/-- C5: for every piece initialised in the block manager (its slot vector is
present), `is_piece_complete` is true iff every slot is present, and when the
slots hold chunks `assemble_piece` returns their concatenation in offset
order.  (`is_piece_complete` and `assemble_piece` are modelled from the spec:
only their call sites are among the sources.) -/
theorem C5_complete_and_assemble (bm : BlockManager) (index : Nat)
    (blocks : List (Option (List Nat)))
    (h : assocGet bm.piece_blocks index = some blocks) :
    (bm.is_piece_complete index = true ↔ ∀ s ∈ blocks, s.isSome = true) ∧
    ∀ chunks : List (List Nat), blocks = chunks.map some →
      bm.assemble_piece index = some chunks.flatten := by
  constructor
  · simp [BlockManager.is_piece_complete, h, List.all_eq_true]
  · intro chunks hc
    subst hc
    simp only [BlockManager.assemble_piece, h, List.all_eq_true, List.map_map]
    rw [if_pos (by intro s hs; simp at hs; obtain ⟨c, -, rfl⟩ := hs; rfl)]
    rw [show ((fun s : Option (List Nat) => s.getD []) ∘ some) = id from rfl, List.map_id]

/-- C5 witness: a 2-block piece (20000 bytes) with both blocks stored is
complete and assembles to the stored chunks in offset order. -/
theorem C5_witness :
    (((BlockManager.new.init_piece 0 20000).store_block ⟨0, 0, 16384⟩ [1]).store_block
        ⟨0, 16384, 3616⟩ [2, 3]).is_piece_complete 0 = true ∧
    (((BlockManager.new.init_piece 0 20000).store_block ⟨0, 0, 16384⟩ [1]).store_block
        ⟨0, 16384, 3616⟩ [2, 3]).assemble_piece 0 = some [1, 2, 3] := by
  have h := C5_complete_and_assemble
    (((BlockManager.new.init_piece 0 20000).store_block ⟨0, 0, 16384⟩ [1]).store_block
      ⟨0, 16384, 3616⟩ [2, 3]) 0 [some [1], some [2, 3]] (by decide)
  exact ⟨h.1.mpr (by decide), by simpa using h.2 [[1], [2, 3]] rfl⟩

/-- C7 counterexample: a 2-block piece where block 0 is stored and block 1 is
pending.  `next_block` returns None, yet the piece is declared, is not fully
stored (slot 1 is empty) and is not fully pending (block 0's entry was
cleared when it was stored) — refuting "returns None exactly when the piece
is undeclared, fully stored, or fully pending". -/
theorem C7_counterexample :
    (let bm0 := BlockManager.new.init_piece 0 32768
     let r1 := bm0.next_block 0 32768
     let r2 := r1.2.next_block 0 32768
     let bm3 := r2.2.store_block ⟨0, 0, 16384⟩ [7]
     (bm3.next_block 0 32768).1 = none ∧
     assocGet bm3.piece_blocks 0 = some [some [7], none] ∧
     assocGet bm3.pending_blocks ⟨0, 0, 16384⟩ = none ∧
     (assocGet bm3.pending_blocks ⟨0, 16384, 16384⟩).isSome = true) := by
  decide

lemma nextBlockScan_spec (pending : List (BlockInfo × Nat)) (index size : Nat)
    (blocks : List (Option (List Nat))) : ∀ start : Nat,
    (∀ bi, nextBlockScan pending index size blocks start = some bi →
      ∃ k, blocks[k]? = some none ∧
        bi = ⟨index, (start + k) * BLOCK_SIZE, min BLOCK_SIZE (size - (start + k) * BLOCK_SIZE)⟩ ∧
        assocGet pending bi = none ∧
        ∀ j < k, ¬(blocks[j]? = some none ∧
          assocGet pending ⟨index, (start + j) * BLOCK_SIZE,
            min BLOCK_SIZE (size - (start + j) * BLOCK_SIZE)⟩ = none)) ∧
    (nextBlockScan pending index size blocks start = none ↔
      ∀ k, blocks[k]? = some none →
        (assocGet pending ⟨index, (start + k) * BLOCK_SIZE,
          min BLOCK_SIZE (size - (start + k) * BLOCK_SIZE)⟩).isSome = true) := by
  induction blocks with
  | nil =>
    intro start
    constructor
    · intro bi hbi
      simp [nextBlockScan] at hbi
    · simp [nextBlockScan]
  | cons slot rest ih =>
    intro start
    have ihs := ih (start + 1)
    have hshift : ∀ k : Nat, start + 1 + k = start + (k + 1) := by omega
    match slot with
    | some v =>
      constructor
      · intro bi hbi
        rw [show nextBlockScan pending index size (some v :: rest) start
            = nextBlockScan pending index size rest (start + 1) from rfl] at hbi
        obtain ⟨k, hk1, hk2, hk3, hk4⟩ := ihs.1 bi hbi
        rw [hshift k] at hk2
        refine ⟨k + 1, by simpa using hk1, hk2, hk3, ?_⟩
        intro j hj
        match j with
        | 0 => simp
        | j + 1 =>
          have := hk4 j (by omega)
          rw [hshift j] at this
          simpa using this
      · rw [show nextBlockScan pending index size (some v :: rest) start
            = nextBlockScan pending index size rest (start + 1) from rfl]
        rw [ihs.2]
        constructor
        · intro hall k hk
          match k with
          | 0 => simp at hk
          | k + 1 =>
            have := hall k (by simpa using hk)
            rwa [hshift k] at this
        · intro hall k hk
          have := hall (k + 1) (by simpa using hk)
          rwa [← hshift k] at this
    | none =>
      cases hp : (assocGet pending
          ⟨index, start * BLOCK_SIZE, min BLOCK_SIZE (size - start * BLOCK_SIZE)⟩).isSome with
      | true =>
        have hstep : nextBlockScan pending index size (none :: rest) start
            = nextBlockScan pending index size rest (start + 1) := by
          simp [nextBlockScan, hp]
        constructor
        · intro bi hbi
          rw [hstep] at hbi
          obtain ⟨k, hk1, hk2, hk3, hk4⟩ := ihs.1 bi hbi
          rw [hshift k] at hk2
          refine ⟨k + 1, by simpa using hk1, hk2, hk3, ?_⟩
          intro j hj
          match j with
          | 0 =>
            intro hcontra
            have h2 := hcontra.2
            rw [Nat.add_zero] at h2
            rw [h2] at hp
            simp at hp
          | j + 1 =>
            have := hk4 j (by omega)
            rw [hshift j] at this
            simpa using this
        · rw [hstep, ihs.2]
          constructor
          · intro hall k hk
            match k with
            | 0 => simpa using hp
            | k + 1 =>
              have := hall k (by simpa using hk)
              rwa [hshift k] at this
          · intro hall k hk
            have := hall (k + 1) (by simpa using hk)
            rwa [← hshift k] at this
      | false =>
        have hpn : assocGet pending
            ⟨index, start * BLOCK_SIZE, min BLOCK_SIZE (size - start * BLOCK_SIZE)⟩ = none :=
          Option.not_isSome_iff_eq_none.mp (by simp [hp])
        have hstep : nextBlockScan pending index size (none :: rest) start
            = some ⟨index, start * BLOCK_SIZE, min BLOCK_SIZE (size - start * BLOCK_SIZE)⟩ := by
          simp [nextBlockScan, hp]
        constructor
        · intro bi hbi
          rw [hstep] at hbi
          obtain rfl : (⟨index, start * BLOCK_SIZE, min BLOCK_SIZE (size - start * BLOCK_SIZE)⟩
              : BlockInfo) = bi := by injection hbi
          exact ⟨0, by simp, by simp, hpn, by omega⟩
        · rw [hstep]
          constructor
          · intro hcontra
            cases hcontra
          · intro hall
            have := hall 0 (by simp)
            rw [Nat.add_zero] at this
            rw [this] at hp
            cases hp

/-- C7 (amended): for every piece previously initialised with size `size`,
`next_block(index, size)` returns the lowest-offset block of that piece that
is both empty and not pending, marking it pending with the current timestamp;
it returns None exactly when the piece is undeclared or every one of its
blocks is either stored or pending; and the returned block's length is
`min(16384, size − offset)`, so only the last block can be short. -/
theorem C7_next_block_lowest (bm : BlockManager) (index size : Nat)
    (blocks : List (Option (List Nat)))
    (h : assocGet bm.piece_blocks index = some blocks)
    (hlen : blocks.length = (size + BLOCK_SIZE - 1) / BLOCK_SIZE) :
    (∀ bm' : BlockManager, assocGet bm'.piece_blocks index = none →
      (bm'.next_block index size).1 = none ∧ (bm'.next_block index size).2 = bm') ∧
    (∀ bi, (bm.next_block index size).1 = some bi →
      ∃ i, blocks[i]? = some none ∧
        bi = ⟨index, i * BLOCK_SIZE, min BLOCK_SIZE (size - i * BLOCK_SIZE)⟩ ∧
        assocGet bm.pending_blocks bi = none ∧
        (∀ j < i, ¬(blocks[j]? = some none ∧
          assocGet bm.pending_blocks ⟨index, j * BLOCK_SIZE,
            min BLOCK_SIZE (size - j * BLOCK_SIZE)⟩ = none)) ∧
        (bm.next_block index size).2.pending_blocks = assocSet bm.pending_blocks bi bm.clock ∧
        (i + 1 < blocks.length → bi.length = BLOCK_SIZE)) ∧
    ((bm.next_block index size).1 = none ↔ ∀ i < blocks.length, blocks[i]? = some none →
      (assocGet bm.pending_blocks ⟨index, i * BLOCK_SIZE,
        min BLOCK_SIZE (size - i * BLOCK_SIZE)⟩).isSome = true) := by
  have hscan := nextBlockScan_spec bm.pending_blocks index size blocks 0
  have hnb : bm.next_block index size =
      (match nextBlockScan bm.pending_blocks index size blocks 0 with
       | none => (none, bm)
       | some block_info =>
         (some block_info,
           { bm with
             pending_blocks := assocSet bm.pending_blocks block_info bm.clock
             clock := bm.clock + 1 })) := by
    unfold BlockManager.next_block
    rw [h]
  refine ⟨?_, ?_, ?_⟩
  · intro bm' h'
    simp [BlockManager.next_block, h']
  · intro bi hbi
    rw [hnb] at hbi
    cases hs : nextBlockScan bm.pending_blocks index size blocks 0 with
    | none => rw [hs] at hbi; simp at hbi
    | some bi' =>
      rw [hs] at hbi
      obtain ⟨k, hk1, hk2, hk3, hk4⟩ := hscan.1 bi' hs
      obtain rfl : bi' = bi := by injection hbi
      rw [Nat.zero_add] at hk2
      refine ⟨k, hk1, hk2, hk3, ?_, ?_, ?_⟩
      · intro j hj
        have := hk4 j hj
        rwa [Nat.zero_add] at this
      · rw [hnb, hs]
      · intro hk
        have hsz : k * 16384 + 16384 ≤ size := by
          rw [hlen] at hk
          have hk2' : k + 2 ≤ (size + 16384 - 1) / 16384 := by
            simpa [BLOCK_SIZE] using hk
          have h2 : (k + 2) * 16384 ≤ size + 16384 - 1 :=
            (Nat.le_div_iff_mul_le (by norm_num)).mp hk2'
          omega
        rw [hk2]
        show min BLOCK_SIZE (size - k * BLOCK_SIZE) = BLOCK_SIZE
        simp only [BLOCK_SIZE]
        omega
  · rw [hnb]
    cases hs : nextBlockScan bm.pending_blocks index size blocks 0 with
    | none =>
      have hall := hscan.2.mp hs
      simp only [Nat.zero_add] at hall
      constructor
      · intro _ i _ hi
        exact hall i hi
      · intro _
        rfl
    | some bi' =>
      constructor
      · intro hcontra
        cases hcontra
      · intro hall
        have hnone : nextBlockScan bm.pending_blocks index size blocks 0 = none := by
          rw [hscan.2]
          intro k hk
          have hklt : k < blocks.length := by
            by_contra hge
            rw [List.getElem?_eq_none (by omega)] at hk
            cases hk
          have := hall k hklt hk
          rwa [Nat.zero_add]
        rw [hnone] at hs
        cases hs

/-- C7 witness: a 2-block piece with both blocks handed out (and none stored)
admits no further block — every block is stored-or-pending. -/
theorem C7_witness :
    ((((BlockManager.new.init_piece 5 20000).next_block 5 20000).2.next_block
        5 20000).2.next_block 5 20000).1 = none := by
  have h := C7_next_block_lowest
    (((BlockManager.new.init_piece 5 20000).next_block 5 20000).2.next_block 5 20000).2
    5 20000 [none, none] (by decide) (by decide)
  exact h.2.2.mpr (by decide)

/-! ## Disk writer (src/file/disk.rs)

A file on disk is `(declared_size, contents)`; `seek(file_start)` followed by
`write_all(slice)` overwrites `contents` at position `file_start`. -/

/-- Overwrite `content` from position `pos` with `bytes` (seek + write_all). -/
def writeAt (content : List Nat) (pos : Nat) (bytes : List Nat) : List Nat :=
  content.take pos ++ bytes ++ content.drop (pos + bytes.length)

/-- The file-list walk of `DiskFileManager::write_piece` (disk.rs lines 56-89),
carrying `current_offset`, `file_offset` and `remaining_data` exactly as the
source does; the early `break` when the remaining data empties leaves the
remaining files untouched. -/
def writeLoop : List (Nat × List Nat) → Nat → Nat → List Nat → List (Nat × List Nat)
  | [], _, _, _ => []
  | (file_size, content) :: rest, current_offset, file_offset, remaining =>
    if current_offset < file_offset + file_size then
      let file_start := if file_offset < current_offset then current_offset - file_offset else 0
      let bytes_in_this_file := min remaining.length (file_size - file_start)
      if 0 < bytes_in_this_file then
        let content' := writeAt content file_start (remaining.take bytes_in_this_file)
        let remaining' := remaining.drop bytes_in_this_file
        if remaining'.isEmpty then (file_size, content') :: rest
        else
          (file_size, content') ::
            writeLoop rest (current_offset + bytes_in_this_file) (file_offset + file_size)
              remaining'
      else (file_size, content) :: writeLoop rest current_offset (file_offset + file_size) remaining
    else (file_size, content) :: writeLoop rest current_offset (file_offset + file_size) remaining

/-- `DiskFileManager::write_piece` (disk.rs lines 46-92): start the walk at
`base = piece_index * piece_size`, `file_offset = 0`. -/
def write_piece (files : List (Nat × List Nat)) (piece_size piece_index : Nat)
    (data : List Nat) : List (Nat × List Nat) :=
  writeLoop files (piece_index * piece_size) 0 data

/-- The claim's description of one file's share of a scatter write: when
`[base, base + |data|)` overlaps the file extent
`[file_offset, file_offset + file_size)`, the file receives exactly the
overlapping slice of `data`, written at offset `max 0 (base - file_offset)`
inside the file; otherwise it is untouched. -/
def overlayFile (content : List Nat) (file_offset file_size base : Nat)
    (data : List Nat) : List Nat :=
  let lo := max base file_offset
  let hi := min (base + data.length) (file_offset + file_size)
  if lo < hi then writeAt content (lo - file_offset) ((data.drop (lo - base)).take (hi - lo))
  else content

/-- The claim's description of the whole scatter write: every file receives
its overlapping slice, independently of the others. -/
def specWrite : List (Nat × List Nat) → Nat → Nat → List Nat → List (Nat × List Nat)
  | [], _, _, _ => []
  | (file_size, content) :: rest, file_offset, base, data =>
    (file_size, overlayFile content file_offset file_size base data) ::
      specWrite rest (file_offset + file_size) base data

lemma specWrite_of_no_overlap (fs : List (Nat × List Nat)) :
    ∀ file_offset base data, base + (data : List Nat).length ≤ file_offset →
    specWrite fs file_offset base data = fs := by
  induction fs with
  | nil => intro fo base data h; rfl
  | cons f rest ih =>
    intro fo base data h
    obtain ⟨size, content⟩ := f
    show (size, overlayFile content fo size base data) :: specWrite rest (fo + size) base data
      = (size, content) :: rest
    rw [ih (fo + size) base data (by omega)]
    have : overlayFile content fo size base data = content := by
      unfold overlayFile
      rw [if_neg (by omega)]
    rw [this]

lemma specWrite_drop (fs : List (Nat × List Nat)) :
    ∀ file_offset base k (data : List Nat), k ≤ data.length → base + k ≤ file_offset →
    specWrite fs file_offset base data = specWrite fs file_offset (base + k) (data.drop k) := by
  induction fs with
  | nil => intro fo base k data hk h; rfl
  | cons f rest ih =>
    intro fo base k data hk h
    obtain ⟨size, content⟩ := f
    show (size, overlayFile content fo size base data) :: specWrite rest (fo + size) base data
      = (size, overlayFile content fo size (base + k) (data.drop k)) ::
          specWrite rest (fo + size) (base + k) (data.drop k)
    rw [ih (fo + size) base k data hk (by omega)]
    have hov : overlayFile content fo size base data
        = overlayFile content fo size (base + k) (data.drop k) := by
      unfold overlayFile
      have hlo : max base fo = fo := by omega
      have hlo' : max (base + k) fo = fo := by omega
      have hdl : data.length = k + (data.drop k).length := by
        rw [List.length_drop]; omega
      have hhi : min (base + data.length) (fo + size)
          = min (base + k + (data.drop k).length) (fo + size) := by
        rw [hdl]; omega
      rw [hlo, hlo', ← hhi]
      by_cases hc : fo < min (base + data.length) (fo + size)
      · rw [if_pos hc, if_pos hc]
        have hdd : (data.drop k).drop (fo - (base + k)) = data.drop (fo - base) := by
          rw [List.drop_drop]
          congr 1
          omega
        rw [hdd]
      · rw [if_neg hc, if_neg hc]
    rw [hov]

lemma writeLoop_nil_data (fs : List (Nat × List Nat)) :
    ∀ current_offset file_offset, writeLoop fs current_offset file_offset [] = fs := by
  induction fs with
  | nil => intro co fo; rfl
  | cons f rest ih =>
    intro co fo
    obtain ⟨size, content⟩ := f
    unfold writeLoop
    by_cases hin : co < fo + size
    · rw [if_pos hin]
      simp only [List.length_nil]
      rw [if_neg (by omega), ih]
    · rw [if_neg hin, ih]

lemma specWrite_nil_data (fs : List (Nat × List Nat)) :
    ∀ file_offset base, specWrite fs file_offset base [] = fs := by
  induction fs with
  | nil => intro fo base; rfl
  | cons f rest ih =>
    intro fo base
    obtain ⟨size, content⟩ := f
    show (size, overlayFile content fo size base []) :: specWrite rest (fo + size) base []
      = (size, content) :: rest
    rw [ih]
    have : overlayFile content fo size base [] = content := by
      unfold overlayFile
      rw [if_neg (by simp only [List.length_nil, Nat.add_zero]; omega)]
    rw [this]

lemma writeLoop_eq_specWrite (fs : List (Nat × List Nat)) :
    ∀ current_offset file_offset (remaining : List Nat), file_offset ≤ current_offset →
    writeLoop fs current_offset file_offset remaining
      = specWrite fs file_offset current_offset remaining := by
  induction fs with
  | nil => intro co fo rem hle; rfl
  | cons f rest ih =>
    intro co fo rem hle
    obtain ⟨size, content⟩ := f
    unfold writeLoop
    have hstart : (if fo < co then co - fo else 0) = co - fo := by
      by_cases h : fo < co
      · rw [if_pos h]
      · rw [if_neg h]; omega
    by_cases hin : co < fo + size
    · rw [if_pos hin, hstart]
      set bytes := min rem.length (size - (co - fo)) with hbytes
      have hhead : overlayFile content fo size co rem
          = (if 0 < bytes then writeAt content (co - fo) (rem.take bytes) else content) := by
        unfold overlayFile
        have hlo : max co fo = co := by omega
        have hhilo : min (co + rem.length) (fo + size) - co = bytes := by omega
        rw [hlo]
        by_cases hc : 0 < bytes
        · rw [if_pos (by omega), if_pos hc]
          rw [Nat.sub_self, List.drop_zero, hhilo]
        · rw [if_neg (by omega), if_neg hc]
      by_cases hb : 0 < bytes
      · rw [if_pos hb]
        by_cases hemp : (rem.drop bytes).isEmpty
        · rw [if_pos hemp]
          have hrle : rem.length ≤ bytes := by
            rw [List.isEmpty_iff, List.drop_eq_nil_iff] at hemp
            exact hemp
          show _ = (size, overlayFile content fo size co rem) :: specWrite rest (fo + size) co rem
          rw [hhead, if_pos hb]
          rw [specWrite_of_no_overlap rest (fo + size) co rem (by omega)]
        · rw [if_neg hemp]
          have hrgt : bytes < rem.length := by
            rw [List.isEmpty_iff, List.drop_eq_nil_iff] at hemp
            omega
          have hbeq : bytes = size - (co - fo) := by omega
          have hnext : fo + size = co + bytes := by omega
          show _ = (size, overlayFile content fo size co rem) :: specWrite rest (fo + size) co rem
          rw [hhead, if_pos hb]
          rw [ih (co + bytes) (fo + size) (rem.drop bytes) (by omega)]
          rw [specWrite_drop rest (fo + size) co bytes rem (by omega) (by omega)]
      · rw [if_neg hb]
        have hrem : rem = [] := by
          have : size - (co - fo) > 0 := by omega
          have : rem.length = 0 := by omega
          exact List.length_eq_zero.mp this
        subst hrem
        rw [writeLoop_nil_data]
        show _ = (size, overlayFile content fo size co []) :: specWrite rest (fo + size) co []
        rw [specWrite_nil_data]
        have : overlayFile content fo size co [] = content := by
          unfold overlayFile
          rw [if_neg (by simp only [List.length_nil, Nat.add_zero]; omega)]
        rw [this]
    · rw [if_neg hin]
      show _ = (size, overlayFile content fo size co rem) :: specWrite rest (fo + size) co rem
      rw [ih co (fo + size) rem (by omega)]
      have : overlayFile content fo size co rem = content := by
        unfold overlayFile
        rw [if_neg (by omega)]
      rw [this]

/-- C6: `write_piece(p, data)` writes `data` into the virtual concatenation of
the file list at byte positions `[p * piece_length, p * piece_length + |data|)`:
every file whose extent overlaps that range receives exactly the overlapping
slice of `data`, written starting at offset `max 0 (base - file_offset)` within
the file, with no overlap and no gap (each file's share is determined
independently by `specWrite`); in particular, for files f1 of length 100 and
f2 of length 50 with piece_length 64, writing piece 1 with 64 bytes puts the
first 36 bytes at f1[64..100) and the next 28 at f2[0..28). -/
theorem C6_scatter_write :
    (∀ (files : List (Nat × List Nat)) (piece_size piece_index : Nat) (data : List Nat),
      write_piece files piece_size piece_index data
        = specWrite files 0 (piece_index * piece_size) data) ∧
    write_piece [(100, List.replicate 100 0), (50, List.replicate 50 0)] 64 1 (List.range 64)
      = [(100, List.replicate 64 0 ++ (List.range 64).take 36),
         (50, (List.range 64).drop 36 ++ List.replicate 22 0)] := by
  constructor
  · intro files piece_size piece_index data
    exact writeLoop_eq_specWrite files (piece_index * piece_size) 0 data (Nat.zero_le _)
  · decide

/-! ## Peer worker (src/client/peer_worker.rs)

`PeerWorker::run` is modelled as a function of the outcomes of its awaited
I/O: the result of `receive_bitfield` (`none` models its error), whether
`send_interested` succeeds, the sequence of `receive_message` outcomes, and
oracles for the outcomes of `request_block` sends and `piece_tx.send`s
(consumed in call order; an exhausted oracle means the operation succeeds,
and an exhausted event list models the shutdown branch — every terminating
execution of the Rust loop corresponds to a finite event list). -/

/-- The configuration fields of `ClientConfig` and torrent geometry that
`PeerWorker` uses. -/
structure WorkerCfg where
  max_requests_per_peer : Nat
  total_length : Nat
  piece_size : Nat
  total_pieces : Nat
  deriving DecidableEq, Repr

/-- `PeerWorker::get_piece_size` (peer_worker.rs lines 276-288). -/
def get_piece_size (cfg : WorkerCfg) (piece_index : Nat) : Nat :=
  if piece_index = cfg.total_pieces - 1 then
    let remainder := cfg.total_length % cfg.piece_size
    if remainder = 0 then cfg.piece_size else remainder
  else cfg.piece_size

/-- The mutable state `PeerWorker::run` touches: the shared piece and block
managers, the worker's own fields, the peer's choke/interest flags and stored
bitfield, the downloaded-bytes statistic, and the two I/O oracles. -/
structure WorkerState where
  pm : PieceManager
  bm : BlockManager
  assigned_piece : Option Nat
  pending_requests : List BlockInfo
  choked : Bool
  interested : Bool
  peerBitfield : Option Bitfield
  downloaded : Nat
  sendResults : List Bool
  txResults : List Bool
  deriving DecidableEq, Repr

/-- Consume the next oracle entry; an exhausted oracle yields success. -/
def takeOracle : List Bool → Bool × List Bool
  | [] => (true, [])
  | b :: rest => (b, rest)

/-- `PeerWorker::request_more_blocks` (peer_worker.rs lines 233-273) as a
fuel-indexed loop.  Every iteration either pushes one request (growing
`pending_requests` towards `max_requests_per_peer`) or returns, so fuel
`max_requests_per_peer + 1` (see `request_more_blocks`) always covers the
`while`; the Boolean is false when a `request_block` send failed, which the
source propagates with `?`.  A failed send keeps the block pending in the
block manager and does not push it onto `pending_requests`, exactly as the
source (the push comes after the `await?`). -/
def requestMoreBlocksAux (cfg : WorkerCfg) : Nat → WorkerState → WorkerState × Bool
  | 0, w => (w, true)
  | fuel + 1, w =>
    if w.pending_requests.length < cfg.max_requests_per_peer then
      let w :=
        match w.assigned_piece with
        | some _ => w
        | none =>
          match w.pm.next_piece with
          | (some piece, pm') =>
            { w with
              pm := pm'
              assigned_piece := some piece
              bm := w.bm.init_piece piece (get_piece_size cfg piece) }
          | (none, pm') => { w with pm := pm' }
      match w.assigned_piece with
      | some piece =>
        match w.bm.next_block piece (get_piece_size cfg piece) with
        | (some block_info, bm') =>
          let w := { w with bm := bm' }
          let (ok, rest) := takeOracle w.sendResults
          let w := { w with sendResults := rest }
          if ok then
            requestMoreBlocksAux cfg fuel
              { w with pending_requests := w.pending_requests ++ [block_info] }
          else (w, false)
        | (none, bm') => ({ w with bm := bm' }, true)
      | none => (w, true)
    else (w, true)

/-- `PeerWorker::request_more_blocks` entry point. -/
def request_more_blocks (cfg : WorkerCfg) (w : WorkerState) : WorkerState × Bool :=
  requestMoreBlocksAux cfg (cfg.max_requests_per_peer + 1) w

/-- `PeerWorker::handle_piece_data` (peer_worker.rs lines 184-231).  When the
piece completes and the verifier channel send fails, the source returns
`Ok(())` at once — skipping `cleanup_piece`, the assignment clear, the stats
update and the refill. -/
def handle_piece_data (cfg : WorkerCfg) (w : WorkerState) (index begin_ : Nat)
    (block : List Nat) : WorkerState × Bool :=
  let block_info : BlockInfo := ⟨index, begin_, block.length⟩
  let w := { w with pending_requests :=
    w.pending_requests.filter (fun b => !(b.piece_index == index && b.offset == begin_)) }
  let w := { w with bm := w.bm.store_block block_info block }
  let finish := fun (w : WorkerState) =>
    let w := { w with downloaded := w.downloaded + block.length }
    if !w.choked then request_more_blocks cfg w else (w, true)
  if w.bm.is_piece_complete index then
    match w.bm.assemble_piece index with
    | some _ =>
      let (okTx, rest) := takeOracle w.txResults
      let w := { w with txResults := rest }
      if !okTx then (w, true)
      else finish { w with bm := w.bm.cleanup_piece index, assigned_piece := none }
    | none => finish w
  else finish w

/-- `PeerWorker::handle_message` (peer_worker.rs lines 137-182); the Boolean
is false when the handler returned an error (a failed `request_block`). -/
def handle_message (cfg : WorkerCfg) (w : WorkerState) : PeerMessage → WorkerState × Bool
  | .choke => ({ w with choked := true, pending_requests := [] }, true)
  | .unchoke => request_more_blocks cfg { w with choked := false }
  | .piece index begin_ block => handle_piece_data cfg w index begin_ block
  | _ => (w, true)

/-- One outcome of the `tokio::select!` in the message loop. -/
inductive LoopEvent where
  | shutdown
  | msgOk (m : PeerMessage)
  | msgNone
  | msgErr

/-- The message loop of `PeerWorker::run` (peer_worker.rs lines 90-120):
shutdown, a closed connection (`Ok(None)`), a receive error, and a handler
error all `break`; a handled message continues. -/
def run_loop (cfg : WorkerCfg) : List LoopEvent → WorkerState → WorkerState
  | [], w => w
  | e :: rest, w =>
    match e with
    | .shutdown => w
    | .msgNone => w
    | .msgErr => w
    | .msgOk m =>
      match handle_message cfg w m with
      | (w', true) => run_loop cfg rest w'
      | (w', false) => w'

/-- The cleanup section at the end of `PeerWorker::run` (peer_worker.rs lines
122-132): `remove_peer` with the stored bitfield, then `mark_failed` on any
assigned piece. -/
def run_cleanup (w : WorkerState) : WorkerState :=
  let w :=
    match w.peerBitfield with
    | some bf => { w with pm := w.pm.remove_peer bf }
    | none => w
  match w.assigned_piece with
  | some piece => { w with pm := w.pm.mark_failed piece, assigned_piece := none }
  | none => w

/-- `PeerWorker::run` (peer_worker.rs lines 66-135).  The two `?` operators
before the message loop return without reaching the cleanup section; only the
`break` paths of the loop fall through to it. -/
def PeerWorker.run (cfg : WorkerCfg) (w0 : WorkerState) (bitfieldResult : Option Bitfield)
    (sendInterestedOk : Bool) (events : List LoopEvent) : WorkerState × Bool :=
  match bitfieldResult with
  | none => (w0, false)
  | some bf =>
    let w := { w0 with peerBitfield := some bf }
    let w := { w with pm := w.pm.add_peer bf }
    if !sendInterestedOk then (w, false)
    else
      let w := { w with interested := true }
      let w := run_loop cfg events w
      (run_cleanup w, true)

/-- C4: an exit path of `run` on which the peer's bitfield was counted by
`add_peer` but `remove_peer` never runs: `receive_bitfield` succeeds (the
bitfield is stored and counted), then `send_interested` fails and `?` returns
before the cleanup section.  The availability queue still carries the peer's
contribution when `run` terminates, while the same session with a successful
`send_interested` ends with the contribution released. -/
theorem C4_cleanup_skipped_on_send_interested_failure :
    (let cfg : WorkerCfg := ⟨5, 49152, 16384, 3⟩
     let w0 : WorkerState :=
       ⟨PieceManager.new 3 16384, BlockManager.new, none, [], true, false, none, 0, [], []⟩
     let bad := PeerWorker.run cfg w0 (some ⟨[0xE0]⟩) false []
     let good := PeerWorker.run cfg w0 (some ⟨[0xE0]⟩) true []
     bad.2 = false ∧
     bad.1.peerBitfield = some ⟨[0xE0]⟩ ∧
     bad.1.pm.availability_queue = [(1, 1), (1, 2)] ∧
     good.1.pm.availability_queue = []) := by
  decide

end TorrentRs
